import Mathlib

/-!
Verification of the band-segmentation core and the file-reading helpers of
the CoFeMnTi plotting scripts.

The segmenter (`plot_bands_improved.py` lines 32-46, duplicated in
`plot_spin_resolved_bands.py` lines 58-75) scans the k-coordinate array,
records a boundary at every index `i ≥ 1` with `k[i] < k[i-1]`, brackets the
boundary list with `0` and `len(k)`, and then slices the parallel arrays
between consecutive boundaries.  Floating-point k-coordinates and energies
are modelled as rationals (`ℚ`); the segmenter performs only order
comparisons and slicing, so the model is faithful for every finite input.
-/

namespace Bands

/-- Python slice `l[a:b]` for `0 ≤ a`, `b` arbitrary (clamped), as used on
the NumPy arrays `k_coord[start_idx:end_idx]`. -/
def slice (l : List α) (a b : ℕ) : List α :=
  (l.drop a).take (b - a)

/-- Body of the scan `for i in range(1, len(k)): if k[i] < k[i-1]:
band_breaks.append(i)` from `plot_bands_improved.py` lines 33-35: `prev` is
`k[s-1]`, `l` the remaining elements `k[s:]`. -/
def breaksAux (prev : ℚ) (l : List ℚ) (s : ℕ) : List ℕ :=
  match l with
  | [] => []
  | y :: ys => (if y < prev then [s] else []) ++ breaksAux y ys (s + 1)

/-- The boundary indices appended by the scan, with `s` the absolute index of
the second element of the first adjacent pair. -/
def breaksFrom (l : List ℚ) (s : ℕ) : List ℕ :=
  match l with
  | [] => []
  | x :: xs => breaksAux x xs s

/-- `band_breaks = [0]; …scan…; band_breaks.append(len(k_coord))`
(`plot_bands_improved.py` lines 32-36). -/
def bandBreaks (k : List ℚ) : List ℕ :=
  0 :: (breaksFrom k 1 ++ [k.length])

/-- Tail of the slicing loop: `a` is the current boundary, `bs` the boundaries
still to be paired with it. -/
def chunksAux (l : List α) (a : ℕ) (bs : List ℕ) : List (List α) :=
  match bs with
  | [] => []
  | b :: rest => slice l a b :: chunksAux l b rest

/-- `for i in range(len(band_breaks)-1): … l[band_breaks[i]:band_breaks[i+1]]`:
slice a list between every pair of consecutive boundaries
(`plot_bands_improved.py` lines 41-45). -/
def chunks (l : List α) (bs : List ℕ) : List (List α) :=
  match bs with
  | [] => []
  | a :: rest => chunksAux l a rest

/-- Slicing the list `l` at the boundaries computed from the parallel
k-coordinate list `keys`; the scripts slice `k_coord` and `energy` (and hence
the sample pairs) with the same boundary list. -/
def segmentsBy (keys : List ℚ) (l : List α) : List (List α) :=
  chunks l (bandBreaks keys)

/-- The k-coordinate segments emitted by the segmenter
(`plot_bands_improved.py` lines 32-45). -/
def segmentsOf (k : List ℚ) : List (List ℚ) :=
  segmentsBy k k

/-- The unfiltered (k-slice, fermi-shifted energy-slice) pairs built in the
plotting loop (`plot_bands_improved.py` lines 41-46), before the
`len(k_segment) > 1` test. -/
def segmentPairs (k energy : List ℚ) (fermi : ℚ) : List (List ℚ × List ℚ) :=
  (chunks k (bandBreaks k)).zip
    ((chunks energy (bandBreaks k)).map (fun es => es.map (fun v => v - fermi)))

/-- Tail of the rendering loop of `plot_bands_improved.py` lines 41-49. -/
def plotAux (k energy : List ℚ) (fermi : ℚ) (a : ℕ) (bs : List ℕ) :
    List (List ℚ × List ℚ) :=
  match bs with
  | [] => []
  | b :: rest =>
    let ks := slice k a b
    let es := (slice energy a b).map (fun v => v - fermi)
    if 1 < ks.length then (ks, es) :: plotAux k energy fermi b rest
    else plotAux k energy fermi b rest

/-- The rendering loop of `plot_bands_improved.py` lines 41-49: for each pair
of consecutive boundaries build the k- and energy-slices and plot them only
when `len(k_segment) > 1`.  The result lists the `(k_segment, e_segment)`
pairs actually passed to `plt.plot`, in drawing order. -/
def plotSegments (k energy : List ℚ) (fermi : ℚ) : List (List ℚ × List ℚ) :=
  match bandBreaks k with
  | [] => []
  | a :: rest => plotAux k energy fermi a rest

end Bands

namespace Reader

/-- The single error type of the readers; its two cases stand for the Python
`IndexError` raised when `header.split('EFermi =')[1]` finds no marker, and
the `ValueError` raised by `float(...)` on a non-numeric string. -/
inductive FormatError where
  | missingMarker : FormatError
  | notNumeric : FormatError
deriving DecidableEq

deriving instance DecidableEq for Except

/-- Python `s.split(sep)` for a non-empty separator, on explicit character
lists; `cur` holds the reversed characters of the piece being accumulated and
`fuel` bounds the recursion by the length of the remaining input. -/
def splitOnAuxL (sep : List Char) : ℕ → List Char → List Char → List (List Char)
  | 0, cur, s => [cur.reverse ++ s]
  | _ + 1, cur, [] => [cur.reverse]
  | fuel + 1, cur, c :: cs =>
    if sep.isPrefixOf (c :: cs) then
      cur.reverse :: splitOnAuxL sep fuel [] ((c :: cs).drop sep.length)
    else
      splitOnAuxL sep fuel (c :: cur) cs

/-- Python `s.split(sep)`: split at every non-overlapping occurrence of
`sep`, scanning left to right and keeping empty pieces. -/
def splitOnL (s sep : List Char) : List (List Char) :=
  splitOnAuxL sep (s.length + 1) [] s

/-- Python `s.strip()`: remove leading and trailing whitespace. -/
def pyStrip (s : List Char) : List Char :=
  ((s.dropWhile Char.isWhitespace).reverse.dropWhile Char.isWhitespace).reverse

/-- Tail of Python `s.split()` (no separator): split on whitespace runs,
discarding empty pieces; `cur` holds the reversed current field. -/
def wsSplitAux : List Char → List Char → List (List Char)
  | cur, [] => if cur.isEmpty then [] else [cur.reverse]
  | cur, c :: cs =>
    if c.isWhitespace then
      (if cur.isEmpty then [] else [cur.reverse]) ++ wsSplitAux [] cs
    else
      wsSplitAux (c :: cur) cs

/-- Python `s.split()` with no argument, as used in `line.split()`
(`plot_spin_resolved_bands.py` line 32). -/
def pySplitWs (s : List Char) : List (List Char) :=
  wsSplitAux [] s

/-- Value of a list of decimal digit characters. -/
def digitsVal (cs : List Char) : ℕ :=
  cs.foldl (fun a c => a * 10 + (c.toNat - 48)) 0

/-- Leading sign of a numeric literal: the Bool is true for a leading minus
sign, and the remaining characters follow. -/
def parseSign : List Char → Bool × List Char
  | '+' :: cs => (false, cs)
  | '-' :: cs => (true, cs)
  | cs => (false, cs)

/-- The mantissa of a Python float literal: digits with an optional decimal
point, at least one digit overall (`"5"`, `"5."`, `".5"`, `"5.0"`). -/
def parseMantissa? (cs : List Char) : Option ℚ :=
  match splitOnL cs ['.'] with
  | [a] =>
    if a.isEmpty || !a.all Char.isDigit then none else some (digitsVal a)
  | [a, b] =>
    if a.isEmpty && b.isEmpty then none
    else if a.all Char.isDigit && b.all Char.isDigit then
      some ((digitsVal a : ℚ) + (digitsVal b : ℚ) / (10 : ℚ) ^ b.length)
    else none
  | _ => none

/-- Python `float(x)` on an already-stripped string, for the finite decimal
and scientific literals the data files contain (the special forms `inf` and
`nan` have no rational counterpart and never appear in these headers);
`none` models the `ValueError` raised on anything else. -/
def parseFloat? (s : List Char) : Option ℚ :=
  let (neg, cs) := parseSign s
  let mant := cs.takeWhile (fun c => !(c == 'e' || c == 'E'))
  let rest := cs.dropWhile (fun c => !(c == 'e' || c == 'E'))
  match rest with
  | [] => (parseMantissa? mant).map (fun m => if neg then -m else m)
  | _ :: ecs =>
    let (eneg, ds) := parseSign ecs
    if ds.isEmpty || !ds.all Char.isDigit then none
    else
      (parseMantissa? mant).map (fun m =>
        let e : ℤ := if eneg then -(digitsVal ds : ℤ) else (digitsVal ds : ℤ)
        (if neg then -m else m) * (10 : ℚ) ^ e)

/-- The literal marker `'EFermi ='` of `plot_bands_improved.py` line 13. -/
def eFermiMarker : List Char := "EFermi =".data

/-- The literal unit marker `'eV'` of `plot_bands_improved.py` line 13. -/
def eVMarker : List Char := "eV".data

/-- The text the reader hands to `float(...)`: the piece after the first
`'EFermi ='`, cut at the next `'eV'` (or at the end of the header when no
`'eV'` follows), stripped; `none` when the header has no `'EFermi ='`. -/
def fermiField? (header : List Char) : Option (List Char) :=
  ((splitOnL header eFermiMarker)[1]?).map
    (fun rest => pyStrip ((splitOnL rest eVMarker).headD []))

/-- `read_dos_fermi` of `plot_bands_improved.py` lines 9-15 (duplicated in
`plot_spin_resolved_bands.py` lines 9-15 and inside `read_dos_file` of
`plot_dos_pdos.py` lines 16-22):
`header.split('EFermi =')[1].split('eV')[0].strip()` fed to `float`. -/
def read_dos_fermi (header : List Char) : Except FormatError ℚ :=
  match (splitOnL header eFermiMarker)[1]? with
  | none => Except.error FormatError.missingMarker
  | some rest =>
    match parseFloat? (pyStrip ((splitOnL rest eVMarker).headD [])) with
    | none => Except.error FormatError.notNumeric
    | some v => Except.ok v

/-- First pass of `read_bands_data` (`plot_spin_resolved_bands.py` lines
23-27): strip each line, keep it when non-empty and not starting with `#`. -/
def dataLines (lines : List (List Char)) : List (List Char) :=
  (lines.map pyStrip).filter (fun l => !l.isEmpty && !(['#'].isPrefixOf l))

/-- The list comprehension `[float(x) for x in parts]`
(`plot_spin_resolved_bands.py` line 34): convert every field left to right,
aborting at the first field that is not a float literal. -/
def floatRow? : List (List Char) → Option (List ℚ)
  | [] => some []
  | p :: ps =>
    match parseFloat? p, floatRow? ps with
    | some v, some vs => some (v :: vs)
    | _, _ => none

/-- Row-by-row float conversion of a list of lines, failing as soon as one
line has a non-numeric field. -/
def floatTable? : List (List Char) → Option (List (List ℚ))
  | [] => some []
  | l :: ls =>
    match floatRow? (pySplitWs l), floatTable? ls with
    | some r, some rs => some (r :: rs)
    | _, _ => none

/-- Second pass of `read_bands_data` (`plot_spin_resolved_bands.py` lines
30-34): split each kept line on whitespace, skip lines with fewer than two
fields, convert every field with `float` — a failing conversion aborts the
whole read (Python `ValueError`). -/
def convertRows : List (List Char) → Except FormatError (List (List ℚ))
  | [] => Except.ok []
  | l :: ls =>
    let parts := pySplitWs l
    if 2 ≤ parts.length then
      match floatRow? parts with
      | none => Except.error FormatError.notNumeric
      | some row =>
        match convertRows ls with
        | Except.error e => Except.error e
        | Except.ok rows => Except.ok (row :: rows)
    else convertRows ls

/-- `read_bands_data` of `plot_spin_resolved_bands.py` lines 17-36, on the
list of lines of the file. -/
def read_bands_data (lines : List (List Char)) : Except FormatError (List (List ℚ)) :=
  convertRows (dataLines lines)

/-- The lines `read_bands_data` retains: stripped, non-blank, not a comment,
and at least two whitespace-delimited fields. -/
def keptLines (lines : List (List Char)) : List (List Char) :=
  (dataLines lines).filter (fun l => decide (2 ≤ (pySplitWs l).length))

end Reader

namespace Bands

lemma slice_zero_length (l : List α) : slice l 0 l.length = l := by
  simp [slice]

lemma slice_length_le (l : List α) {n : ℕ} (h : l.length ≤ n) : slice l 0 n = l := by
  simp [slice, List.take_of_length_le, h]

lemma slice_append_slice (l : List α) {a b c : ℕ} (h1 : a ≤ b) (h2 : b ≤ c) :
    slice l a b ++ slice l b c = slice l a c := by
  unfold slice
  have hd : (l.drop a).drop (b - a) = l.drop b := by
    rw [List.drop_drop]
    congr 1
    omega
  rw [← hd, ← List.take_add]
  congr 1
  omega

lemma slice_succ_succ (x : α) (l : List α) (a b : ℕ) :
    slice (x :: l) (a + 1) (b + 1) = slice l a b := by
  simp [slice, Nat.succ_sub_succ]

lemma slice_zero_succ (x : α) (l : List α) (b : ℕ) :
    slice (x :: l) 0 (b + 1) = x :: slice l 0 b := by
  simp [slice]

lemma mem_breaksAux : ∀ (l : List ℚ) (prev : ℚ) (s j : ℕ),
    j ∈ breaksAux prev l s ↔
      ∃ t, j = s + t ∧ t < l.length ∧
        (prev :: l).getD (t + 1) 0 < (prev :: l).getD t 0 := by
  intro l
  induction l with
  | nil => intro prev s j; simp [breaksAux]
  | cons y ys ih =>
    intro prev s j
    rw [breaksAux, List.mem_append]
    constructor
    · rintro (h1 | h2)
      · by_cases hc : y < prev
        · rw [if_pos hc, List.mem_singleton] at h1
          exact ⟨0, by omega, by simp, by simpa using hc⟩
        · rw [if_neg hc] at h1
          simp at h1
      · obtain ⟨t, ht, hlen, hlt⟩ := (ih y (s + 1) j).1 h2
        refine ⟨t + 1, by omega, by simp; omega, ?_⟩
        simpa [List.getD_cons_succ] using hlt
    · rintro ⟨t, rfl, hlen, hlt⟩
      cases t with
      | zero =>
        left
        have hc : y < prev := by simpa using hlt
        simp [if_pos hc]
      | succ u =>
        right
        refine (ih y (s + 1) (s + (u + 1))).2 ⟨u, by omega, ?_, ?_⟩
        · simp at hlen; omega
        · simpa [List.getD_cons_succ] using hlt

lemma mem_breaksFrom (k : List ℚ) (j : ℕ) :
    j ∈ breaksFrom k 1 ↔
      1 ≤ j ∧ j < k.length ∧ k.getD j 0 < k.getD (j - 1) 0 := by
  cases k with
  | nil => simp [breaksFrom]
  | cons x xs =>
    rw [breaksFrom, mem_breaksAux]
    constructor
    · rintro ⟨t, rfl, hlen, hlt⟩
      refine ⟨by omega, by simp; omega, ?_⟩
      have e1 : 1 + t = t + 1 := by omega
      rw [e1, Nat.add_sub_cancel]
      exact hlt
    · rintro ⟨h1, h2, hlt⟩
      refine ⟨j - 1, by omega, by simp at h2; omega, ?_⟩
      rw [Nat.sub_add_cancel h1]
      exact hlt

lemma chain'_lt_breaksAux : ∀ (l : List ℚ) (prev : ℚ) (s : ℕ),
    List.Chain' (· < ·) (breaksAux prev l s) := by
  intro l
  induction l with
  | nil => intro prev s; simp [breaksAux]
  | cons y ys ih =>
    intro prev s
    by_cases hc : y < prev
    · rw [breaksAux, if_pos hc]
      rw [List.singleton_append, List.chain'_cons']
      refine ⟨?_, ih y (s + 1)⟩
      intro b hb
      obtain ⟨t, rfl, -, -⟩ :=
        (mem_breaksAux ys y (s + 1) b).1 (List.mem_of_mem_head? hb)
      omega
    · rw [breaksAux, if_neg hc, List.nil_append]
      exact ih y (s + 1)

lemma chain'_lt_breaksFrom (k : List ℚ) : List.Chain' (· < ·) (breaksFrom k 1) := by
  cases k with
  | nil => simp [breaksFrom]
  | cons x xs => exact chain'_lt_breaksAux xs x 1

lemma bandBreaks_chain_lt (k : List ℚ) (hk : k ≠ []) :
    List.Chain' (· < ·) (bandBreaks k) := by
  rw [bandBreaks, List.chain'_cons']
  constructor
  · intro b hb
    rcases List.mem_append.1 (List.mem_of_mem_head? hb) with h | h
    · have := (mem_breaksFrom k b).1 h
      omega
    · have hb' : b = k.length := by simpa using h
      have hp : 0 < k.length := List.length_pos.2 hk
      omega
  · rw [List.chain'_append]
    refine ⟨chain'_lt_breaksFrom k, List.chain'_singleton _, ?_⟩
    intro x hx y hy
    have hxm := (mem_breaksFrom k x).1 (List.mem_of_mem_getLast? hx)
    have hy' : k.length = y := by simpa using hy
    omega

lemma bandBreaks_chain_le (k : List ℚ) : List.Chain' (· ≤ ·) (bandBreaks k) := by
  cases k with
  | nil => simp [bandBreaks, breaksFrom]
  | cons x xs =>
    exact (bandBreaks_chain_lt (x :: xs) (by simp)).imp (fun a b h => le_of_lt h)

lemma chain'_le_head_getLastD : ∀ (bs : List ℕ) (b : ℕ),
    List.Chain' (· ≤ ·) (b :: bs) → b ≤ bs.getLastD b := by
  intro bs
  induction bs with
  | nil => intro b _; simp
  | cons c cs ih =>
    intro b h
    rw [List.chain'_cons] at h
    have h2 := ih c h.2
    rw [List.getLastD_cons]
    omega

lemma chunksAux_length : ∀ (bs : List ℕ) (l : List α) (a : ℕ),
    (chunksAux l a bs).length = bs.length := by
  intro bs
  induction bs with
  | nil => intro l a; simp [chunksAux]
  | cons b rest ih => intro l a; simp [chunksAux, ih]

lemma join_chunksAux : ∀ (bs : List ℕ) (l : List α) (a : ℕ),
    List.Chain' (· ≤ ·) (a :: bs) →
      (chunksAux l a bs).flatten = slice l a (bs.getLastD a) := by
  intro bs
  induction bs with
  | nil =>
    intro l a _
    simp [chunksAux, slice]
  | cons b rest ih =>
    intro l a h
    rw [List.chain'_cons] at h
    rw [chunksAux, List.flatten_cons, ih l b h.2, List.getLastD_cons]
    exact slice_append_slice l h.1 (chain'_le_head_getLastD rest b h.2)

lemma join_segmentsBy (keys : List ℚ) (l : List α) (h : l.length ≤ keys.length) :
    (segmentsBy keys l).flatten = l := by
  have hc : List.Chain' (· ≤ ·)
      (0 :: (breaksFrom keys 1 ++ [keys.length])) := by
    have := bandBreaks_chain_le keys
    rwa [bandBreaks] at this
  rw [segmentsBy, bandBreaks, chunks, join_chunksAux _ l 0 hc]
  have he : (breaksFrom keys 1 ++ [keys.length]).getLastD 0 = keys.length := by
    rw [List.getLastD_eq_getLast?, List.getLast?_concat]
    rfl
  rw [he]
  exact slice_length_le l h

lemma join_segmentsOf (k : List ℚ) : (segmentsOf k).flatten = k :=
  join_segmentsBy k k (le_refl _)

lemma breaksAux_shift : ∀ (l : List ℚ) (prev : ℚ) (s : ℕ),
    breaksAux prev l (s + 1) = (breaksAux prev l s).map (· + 1) := by
  intro l
  induction l with
  | nil => intro prev s; simp [breaksAux]
  | cons y ys ih =>
    intro prev s
    by_cases hc : y < prev <;>
      simp [breaksAux, hc, ih y (s + 1), List.map_append]

lemma chunksAux_map_succ : ∀ (bs : List ℕ) (x : α) (l : List α) (a : ℕ),
    chunksAux (x :: l) (a + 1) (bs.map (· + 1)) = chunksAux l a bs := by
  intro bs
  induction bs with
  | nil => intro x l a; simp [chunksAux]
  | cons b rest ih =>
    intro x l a
    simp only [List.map_cons, chunksAux, slice_succ_succ]
    rw [ih]

lemma segmentsOf_eq_chunksAux (y : ℚ) (rest : List ℚ) :
    segmentsOf (y :: rest)
      = chunksAux (y :: rest) 0 (breaksAux y rest 1 ++ [(y :: rest).length]) := by
  simp [segmentsOf, segmentsBy, bandBreaks, breaksFrom, chunks]

lemma segmentsOf_cons_cons (x y : ℚ) (rest : List ℚ) :
    segmentsOf (x :: y :: rest) =
      if y < x then [x] :: segmentsOf (y :: rest)
      else
        (x :: (segmentsOf (y :: rest)).headD []) ::
          (segmentsOf (y :: rest)).tail := by
  rcases he : breaksAux y rest 1 ++ [(y :: rest).length] with _ | ⟨t₀, ts⟩
  · exact absurd he (by simp)
  by_cases hc : y < x
  · rw [if_pos hc, segmentsOf_eq_chunksAux x (y :: rest), segmentsOf_eq_chunksAux y rest]
    have hx : breaksAux x (y :: rest) 1 = [1] ++ (breaksAux y rest 1).map (· + 1) := by
      rw [breaksAux, if_pos hc, breaksAux_shift]
    rw [hx]
    have hm : (([1] ++ (breaksAux y rest 1).map (· + 1)) ++ [(x :: y :: rest).length])
        = 1 :: ((breaksAux y rest 1 ++ [(y :: rest).length]).map (· + 1)) := by
      simp [List.map_append]
    rw [hm]
    simp only [chunksAux]
    rw [chunksAux_map_succ]
    congr 1
  · rw [if_neg hc, segmentsOf_eq_chunksAux x (y :: rest), segmentsOf_eq_chunksAux y rest]
    have hx : breaksAux x (y :: rest) 1 = (breaksAux y rest 1).map (· + 1) := by
      rw [breaksAux, if_neg hc, breaksAux_shift]
      simp
    rw [hx]
    have hm : ((breaksAux y rest 1).map (· + 1)) ++ [(x :: y :: rest).length]
        = (t₀ + 1) :: ts.map (· + 1) := by
      have hmm : ((breaksAux y rest 1).map (· + 1)) ++ [(x :: y :: rest).length]
          = (breaksAux y rest 1 ++ [(y :: rest).length]).map (· + 1) := by
        simp [List.map_append]
      rw [hmm, he]
      simp
    rw [hm, he]
    simp only [chunksAux]
    rw [chunksAux_map_succ, slice_zero_succ]
    simp

lemma segmentsOf_nil : segmentsOf ([] : List ℚ) = [[]] := by
  decide

lemma segmentsOf_singleton (x : ℚ) : segmentsOf [x] = [[x]] := by
  simp [segmentsOf, segmentsBy, bandBreaks, breaksFrom, breaksAux, chunks,
    chunksAux, slice]

lemma segmentsOf_shape : ∀ (rest : List ℚ) (y : ℚ),
    ∃ h t, segmentsOf (y :: rest) = (y :: h) :: t := by
  intro rest
  induction rest with
  | nil => intro y; exact ⟨[], [], segmentsOf_singleton y⟩
  | cons z r ih =>
    intro y
    rw [segmentsOf_cons_cons y z r]
    by_cases hc : z < y
    · rw [if_pos hc]
      exact ⟨[], segmentsOf (z :: r), rfl⟩
    · rw [if_neg hc]
      obtain ⟨h, t, he⟩ := ih z
      refine ⟨z :: h, t, ?_⟩
      rw [he]
      simp

lemma chain_le_segments : ∀ (k : List ℚ), ∀ s ∈ segmentsOf k, List.Chain' (· ≤ ·) s := by
  intro k
  induction k with
  | nil =>
    intro s hs
    rw [segmentsOf_nil] at hs
    simp at hs
    subst hs
    simp
  | cons x xs ih =>
    cases xs with
    | nil =>
      intro s hs
      rw [segmentsOf_singleton] at hs
      simp at hs
      subst hs
      simp
    | cons y rest =>
      intro s hs
      rw [segmentsOf_cons_cons x y rest] at hs
      by_cases hc : y < x
      · rw [if_pos hc] at hs
        rcases List.mem_cons.1 hs with h | h
        · subst h; simp
        · exact ih s h
      · rw [if_neg hc] at hs
        obtain ⟨hh, tt, he⟩ := segmentsOf_shape rest y
        rw [he] at hs
        simp only [List.headD_cons, List.tail_cons] at hs
        rcases List.mem_cons.1 hs with h | h
        · subst h
          rw [List.chain'_cons]
          refine ⟨not_lt.1 hc, ?_⟩
          refine ih (y :: hh) ?_
          rw [he]
          exact List.mem_cons_self _ _
        · refine ih s ?_
          rw [he]
          exact List.mem_cons_of_mem _ h

lemma segments_ne_nil : ∀ (k : List ℚ), k ≠ [] → ∀ s ∈ segmentsOf k, s ≠ [] := by
  intro k
  induction k with
  | nil => intro h; exact absurd rfl h
  | cons x xs ih =>
    cases xs with
    | nil =>
      intro _ s hs
      rw [segmentsOf_singleton] at hs
      simp at hs
      subst hs
      simp
    | cons y rest =>
      intro _ s hs
      rw [segmentsOf_cons_cons x y rest] at hs
      by_cases hc : y < x
      · rw [if_pos hc] at hs
        rcases List.mem_cons.1 hs with h | h
        · subst h; simp
        · exact ih (by simp) s h
      · rw [if_neg hc] at hs
        obtain ⟨hh, tt, he⟩ := segmentsOf_shape rest y
        rw [he] at hs
        simp only [List.headD_cons, List.tail_cons] at hs
        rcases List.mem_cons.1 hs with h | h
        · subst h; simp
        · refine ih (by simp) s ?_
          rw [he]
          exact List.mem_cons_of_mem _ h

lemma segmentsOf_replicate_length (c : ℚ) : ∀ (n : ℕ),
    (segmentsOf (List.replicate n c)).length = 1 := by
  intro n
  induction n with
  | zero => simp [segmentsOf_nil]
  | succ m ih =>
    cases m with
    | zero => simp [List.replicate, segmentsOf_singleton]
    | succ q =>
      have hr : List.replicate (q + 1 + 1) c = c :: c :: List.replicate q c := by
        simp [List.replicate_succ]
      have hr2 : List.replicate (q + 1) c = c :: List.replicate q c := by
        simp [List.replicate_succ]
      rw [hr, segmentsOf_cons_cons, if_neg (lt_irrefl c)]
      rw [hr2] at ih
      obtain ⟨hh, tt, he⟩ := segmentsOf_shape (List.replicate q c) c
      rw [he] at ih ⊢
      simp only [List.length_cons] at ih ⊢
      simpa using ih

lemma length_breaksFrom_eq (k : List ℚ) :
    (breaksFrom k 1).length
      = ((List.range k.length).filter
          (fun i => decide (1 ≤ i) && decide (k.getD i 0 < k.getD (i - 1) 0))).length := by
  have h1 : (breaksFrom k 1).Nodup :=
    ((List.chain'_iff_pairwise).1 (chain'_lt_breaksFrom k)).imp
      (fun h => Nat.ne_of_lt h)
  have h2 : ((List.range k.length).filter
      (fun i => decide (1 ≤ i) && decide (k.getD i 0 < k.getD (i - 1) 0))).Nodup :=
    (List.nodup_range _).filter _
  refine List.Perm.length_eq ?_
  refine (List.perm_ext_iff_of_nodup h1 h2).2 ?_
  intro j
  rw [mem_breaksFrom, List.mem_filter, List.mem_range]
  simp only [Bool.and_eq_true, decide_eq_true_eq]
  tauto

lemma segmentsOf_length (k : List ℚ) :
    (segmentsOf k).length = 1 + (breaksFrom k 1).length := by
  simp [segmentsOf, segmentsBy, bandBreaks, chunks, chunksAux_length]
  omega

lemma plotAux_eq_filter (k e : List ℚ) (f : ℚ) : ∀ (bs : List ℕ) (a : ℕ),
    plotAux k e f a bs
      = ((chunksAux k a bs).zip
          ((chunksAux e a bs).map (fun es => es.map (fun v => v - f)))).filter
          (fun p => decide (1 < p.1.length)) := by
  intro bs
  induction bs with
  | nil => intro a; simp [plotAux, chunksAux]
  | cons b rest ih =>
    intro a
    simp only [plotAux, chunksAux, List.map_cons, List.zip_cons_cons, List.filter_cons]
    by_cases hc : 1 < (slice k a b).length
    · simp [hc, ih]
    · simp [hc, ih]

lemma plotSegments_eq_filter (k e : List ℚ) (f : ℚ) :
    plotSegments k e f
      = (segmentPairs k e f).filter (fun p => decide (1 < p.1.length)) := by
  simp only [plotSegments, segmentPairs, bandBreaks, chunks]
  exact plotAux_eq_filter k e f _ 0

/-- C1: concatenating the sample sub-sequences of the segments emitted by the
band segmenter, in emission order, reproduces the original input sequence
exactly — the segments form a lossless, order-preserving partition. -/
theorem segments_flatten_eq_input (s : List (ℚ × ℚ)) :
    (segmentsBy (s.map Prod.fst) s).flatten = s :=
  join_segmentsBy _ _ (by simp)

/-- C2: for `1 ≤ i < N` the boundary list contains `i` exactly when
`k[i] < k[i-1]` under the strict order — equality or increase never splits —
and in particular a constant k-sequence yields a single segment. -/
theorem boundary_iff_descent :
    (∀ (k : List ℚ) (i : ℕ), 1 ≤ i → i < k.length →
      (i ∈ bandBreaks k ↔ k.getD i 0 < k.getD (i - 1) 0))
    ∧ ∀ (c : ℚ) (n : ℕ), (segmentsOf (List.replicate n c)).length = 1 := by
  constructor
  · intro k i h1 h2
    rw [bandBreaks, List.mem_cons, List.mem_append, List.mem_singleton,
      mem_breaksFrom]
    constructor
    · rintro (h | h | h)
      · omega
      · exact h.2.2
      · omega
    · intro hlt
      right
      left
      exact ⟨h1, h2, hlt⟩
  · intro c n
    exact segmentsOf_replicate_length c n

/-- C2 witness: on `k = [0, 0.1, 0.2, 0.05]` index 3 is a boundary exactly
because `k[3] < k[2]`, and a constant sequence of length 4 gives one
segment. -/
theorem boundary_iff_descent_witness :
    ((3 : ℕ) ∈ bandBreaks [(0 : ℚ), 0.1, 0.2, 0.05]
      ↔ [(0 : ℚ), 0.1, 0.2, 0.05].getD 3 0 < [(0 : ℚ), 0.1, 0.2, 0.05].getD 2 0)
    ∧ (segmentsOf (List.replicate 4 (1 : ℚ))).length = 1 :=
  ⟨boundary_iff_descent.1 [(0 : ℚ), 0.1, 0.2, 0.05] 3 (by decide) (by decide),
   boundary_iff_descent.2 1 4⟩

/-- C3: every segment emitted by the segmenter has an internally
non-decreasing k-coordinate sub-sequence. -/
theorem segments_nondecreasing (k : List ℚ) :
    ∀ s ∈ segmentsOf k, List.Chain' (· ≤ ·) s :=
  chain_le_segments k

/-- C3 witness: the second segment of `segmentsOf [1, 0, 2]` is `[0, 2]` and
is non-decreasing. -/
theorem segments_nondecreasing_witness :
    List.Chain' (· ≤ ·) [(0 : ℚ), 2] :=
  segments_nondecreasing [(1 : ℚ), 0, 2] [(0 : ℚ), 2] (by decide)

/-- C4 counterexample: on the empty input the segmenter does not return zero
segments — it emits exactly one segment, the empty one (the boundary list is
`[0, 0]`, so the loop runs once and slices `k[0:0]`). -/
theorem segmentsOf_nil_counterexample :
    segmentsOf ([] : List ℚ) = [[]] ∧ segmentsOf ([] : List ℚ) ≠ [] := by
  decide

/-- C4 amended: on an input of length 0 the segmenter emits one empty
segment (not an error, and the renderer still draws nothing), and on an
input of length 1 it emits exactly one segment holding that sample. -/
theorem segmentsOf_small_inputs :
    segmentsOf ([] : List ℚ) = [[]]
    ∧ (∀ x : ℚ, segmentsOf [x] = [[x]])
    ∧ plotSegments [] [] 0 = [] := by
  exact ⟨segmentsOf_nil, segmentsOf_singleton, by decide⟩

/-- C5: re-running the segmenter on the concatenation of its own output
yields the identical partition — the same boundary indices and the same
segments. -/
theorem segmenter_idempotent (k : List ℚ) :
    bandBreaks ((segmentsOf k).flatten) = bandBreaks k
    ∧ segmentsOf ((segmentsOf k).flatten) = segmentsOf k := by
  rw [join_segmentsOf k]
  exact ⟨rfl, rfl⟩

/-- C6: on `k = [0.0, 0.1, 0.2, 0.05, 0.15, 0.3]` the boundary list is
`[0, 3, 6]` and the two emitted segments are `[0.0, 0.1, 0.2]` and
`[0.05, 0.15, 0.3]`. -/
theorem concrete_scenario_eval :
    bandBreaks [0, 0.1, 0.2, 0.05, 0.15, 0.3] = [0, 3, 6]
    ∧ segmentsOf [0, 0.1, 0.2, 0.05, 0.15, 0.3]
      = [[0, 0.1, 0.2], [0.05, 0.15, 0.3]] := by
  constructor <;>
    norm_num [segmentsOf, segmentsBy, bandBreaks, breaksFrom, breaksAux,
      chunks, chunksAux, slice]

/-- C7: the renderer draws exactly the segments with strictly more than one
sample (in order), while the segmenter itself still emits single-sample
segments — on `k = [1, 0]` it emits two singleton segments and the renderer
draws nothing. -/
theorem renderer_filters_short_segments :
    (∀ (k e : List ℚ) (f : ℚ),
      plotSegments k e f
        = (segmentPairs k e f).filter (fun p => decide (1 < p.1.length)))
    ∧ segmentsOf [(1 : ℚ), 0] = [[1], [0]]
    ∧ plotSegments [(1 : ℚ), 0] [5, 6] 0 = [] :=
  ⟨plotSegments_eq_filter, by decide, by decide⟩

/-- C9: for a non-empty input the boundary list starts at 0, ends at `N`, is
strictly increasing, the number of emitted segments is one more than the
number of indices `1 ≤ i < N` with `k[i] < k[i-1]`, and every emitted
segment is non-empty. -/
theorem bandBreaks_invariants (k : List ℚ) (hk : k ≠ []) :
    (bandBreaks k).head? = some 0
    ∧ (bandBreaks k).getLast? = some k.length
    ∧ List.Chain' (· < ·) (bandBreaks k)
    ∧ (segmentsOf k).length
        = 1 + ((List.range k.length).filter
            (fun i => decide (1 ≤ i) && decide (k.getD i 0 < k.getD (i - 1) 0))).length
    ∧ ∀ s ∈ segmentsOf k, s ≠ [] := by
  refine ⟨rfl, ?_, bandBreaks_chain_lt k hk, ?_, segments_ne_nil k hk⟩
  · rw [bandBreaks,
      show (0 : ℕ) :: (breaksFrom k 1 ++ [k.length])
        = (0 :: breaksFrom k 1) ++ [k.length] from rfl]
    exact List.getLast?_concat _
  · rw [segmentsOf_length, length_breaksFrom_eq]

/-- C9 witness: the invariants instantiated on `k = [1, 0]`. -/
theorem bandBreaks_invariants_witness :
    (bandBreaks [(1 : ℚ), 0]).head? = some 0
    ∧ (bandBreaks [(1 : ℚ), 0]).getLast? = some ([(1 : ℚ), 0]).length
    ∧ List.Chain' (· < ·) (bandBreaks [(1 : ℚ), 0])
    ∧ (segmentsOf [(1 : ℚ), 0]).length
        = 1 + ((List.range ([(1 : ℚ), 0]).length).filter
            (fun i => decide (1 ≤ i)
              && decide ([(1 : ℚ), 0].getD i 0 < [(1 : ℚ), 0].getD (i - 1) 0))).length
    ∧ ∀ s ∈ segmentsOf [(1 : ℚ), 0], s ≠ [] :=
  bandBreaks_invariants [(1 : ℚ), 0] (by decide)

end Bands

namespace Reader

lemma convertRows_eq : ∀ (ds : List (List Char)),
    convertRows ds
      = match floatTable?
            (ds.filter (fun l => decide (2 ≤ (pySplitWs l).length))) with
        | none => Except.error FormatError.notNumeric
        | some rows => Except.ok rows := by
  intro ds
  induction ds with
  | nil => simp [convertRows, floatTable?]
  | cons l ls ih =>
    by_cases hp : 2 ≤ (pySplitWs l).length
    · cases q : floatRow? (pySplitWs l) with
      | none => simp [convertRows, floatTable?, hp, q, List.filter_cons]
      | some row =>
        cases r : floatTable?
            (ls.filter (fun l => decide (2 ≤ (pySplitWs l).length))) with
        | none =>
          rw [r] at ih
          simp [convertRows, floatTable?, hp, q, r, ih, List.filter_cons]
        | some rows =>
          rw [r] at ih
          simp [convertRows, floatTable?, hp, q, r, ih, List.filter_cons]
    · simp [convertRows, hp, List.filter_cons, ih]

/-- C8 counterexample: a header with the `'EFermi ='` marker but no `'eV'`
unit marker at all is accepted, not rejected — the reader returns the value
following the marker, so a missing `'eV'` does not produce a `FormatError`. -/
theorem fermi_missing_eV_counterexample :
    (splitOnL "no unit EFermi = 5".data eVMarker).length = 1
    ∧ read_dos_fermi "no unit EFermi = 5".data = Except.ok 5 := by
  decide

lemma read_dos_fermi_eq_match (h : List Char) :
    read_dos_fermi h
      = match fermiField? h with
        | none => Except.error FormatError.missingMarker
        | some f =>
          match parseFloat? f with
          | none => Except.error FormatError.notNumeric
          | some v => Except.ok v := by
  unfold read_dos_fermi fermiField?
  cases (splitOnL h eFermiMarker)[1]? with
  | none => rfl
  | some rest => rfl

/-- C8 amended: the reader fails with `FormatError.missingMarker` exactly
when `'EFermi ='` does not occur; otherwise it parses the text between the
first `'EFermi ='` and the next `'eV'` (or the end of the header when no
`'eV'` follows) and fails with `FormatError.notNumeric` only when that text
is not a float literal — the `'eV'` marker itself is not required. -/
theorem read_dos_fermi_characterization (h : List Char) :
    (read_dos_fermi h).toOption = (fermiField? h).bind parseFloat?
    ∧ (read_dos_fermi h = Except.error FormatError.missingMarker
        ↔ fermiField? h = none)
    ∧ (fermiField? h = none ↔ (splitOnL h eFermiMarker).length ≤ 1) := by
  have hm := read_dos_fermi_eq_match h
  have h3 : fermiField? h = none ↔ (splitOnL h eFermiMarker).length ≤ 1 := by
    rw [fermiField?]
    simp [List.getElem?_eq_none_iff]
  refine ⟨?_, ?_, h3⟩
  · rw [hm]
    cases fe : fermiField? h with
    | none => rfl
    | some f =>
      cases p : parseFloat? f with
      | none => simp [p, Except.toOption]
      | some v => simp [p, Except.toOption]
  · rw [hm]
    cases fe : fermiField? h with
    | none => simp
    | some f =>
      cases p : parseFloat? f with
      | none => simp [p]
      | some v => simp [p]

/-- C8 witness: on the header `'x EFermi = 7 eV tail'` the reader succeeds
with 7, and the characterization evaluates accordingly. -/
theorem read_dos_fermi_characterization_witness :
    (read_dos_fermi "x EFermi = 7 eV tail".data).toOption
        = (fermiField? "x EFermi = 7 eV tail".data).bind parseFloat?
    ∧ (read_dos_fermi "x EFermi = 7 eV tail".data
          = Except.error FormatError.missingMarker
        ↔ fermiField? "x EFermi = 7 eV tail".data = none)
    ∧ (fermiField? "x EFermi = 7 eV tail".data = none
        ↔ (splitOnL "x EFermi = 7 eV tail".data eFermiMarker).length ≤ 1) :=
  read_dos_fermi_characterization "x EFermi = 7 eV tail".data

/-- C10 counterexample: the line `'abc def'` passes all three retention
tests (non-blank, no `'#'`, two fields) but its fields are not float
literals, so `read_bands_data` fails instead of returning the line or
silently discarding it. -/
theorem read_bands_data_counterexample :
    read_bands_data ["abc def".data] = Except.error FormatError.notNumeric
    ∧ "abc def".data ∈ dataLines ["abc def".data]
    ∧ 2 ≤ (pySplitWs "abc def".data).length := by
  decide

/-- C10 amended: `read_bands_data` keeps, in file order, exactly the lines
that are non-blank after stripping, do not start with `'#'`, and have at
least two whitespace-delimited fields, converting every field of a kept line
to a float; lines failing those three tests are silently discarded, but a
kept line with a non-numeric field makes the whole read fail with
`FormatError.notNumeric` instead of being discarded. -/
theorem read_bands_data_characterization (lines : List (List Char)) :
    read_bands_data lines
      = match floatTable? (keptLines lines) with
        | none => Except.error FormatError.notNumeric
        | some rows => Except.ok rows := by
  rw [read_bands_data, keptLines]
  exact convertRows_eq (dataLines lines)

end Reader

example : Bands.segmentsOf [0, 0.1, 0.2, 0.05, 0.15, 0.3] =
    [[0, 0.1, 0.2], [0.05, 0.15, 0.3]] := by
  norm_num [Bands.segmentsOf, Bands.segmentsBy, Bands.bandBreaks, Bands.breaksFrom,
    Bands.breaksAux, Bands.chunks, Bands.chunksAux, Bands.slice]

example : Bands.bandBreaks [0, 0.1, 0.2, 0.05, 0.15, 0.3] = [0, 3, 6] := by
  norm_num [Bands.bandBreaks, Bands.breaksFrom, Bands.breaksAux]

example : Bands.segmentsOf [] = [[]] := by decide

example : Bands.segmentsOf [(5 : ℚ)] = [[5]] := by decide

example : Bands.plotSegments [1, 0] [5, 6] 0 = [] := by decide

example : Reader.read_dos_fermi "no unit EFermi = 5".data = Except.ok 5 := by
  decide

example : Reader.read_dos_fermi "nothing here".data =
    Except.error Reader.FormatError.missingMarker := by
  decide

example : Reader.read_bands_data ["# comment".data, "".data, "15 2 3".data, "only".data] =
    Except.ok [[15, 2, 3]] := by
  decide

example : Reader.read_bands_data ["abc def".data] =
    Except.error Reader.FormatError.notNumeric := by
  decide
